import Mathlib

/-!
Verification of the update-decision and download-manager core of
marlbot-updater (src/updater.py) against its specification.

Modelling conventions:
* Python strings are Lean strings (a structure over a character list in this
  toolchain).  The methods str.startswith and str.lower are modelled by
  structurally recursive functions over the character list, restricted to
  ASCII, which is the alphabet every literal involved uses.
* The regex class d (in the pattern for a dotted triple) is modelled as the
  ASCII digits 0-9.
* The Python expression int(a / b * 100) on non-negative integers is modelled
  as exact rational truncation, a * 100 / b in natural-number division.
* The thread pool is modelled by the per-task data (fixed offsets, per-task
  chunk streams) plus an explicit completion order for the as_completed loop.
-/

namespace Marlbot

/-- ASCII digit test: models the regex character class for digits used by
the compiled pattern at src/updater.py line 23. -/
def isDig (c : Char) : Bool := decide ('0' ≤ c) && decide (c ≤ '9')

/-- Greedily read a nonempty run of digits (one regex atom of digits):
returns the run and the rest of the input, or nothing when the input does not
start with a digit. -/
def readNum (l : List Char) : Option (List Char × List Char) :=
  if l.takeWhile isDig = [] then none else some (l.takeWhile isDig, l.dropWhile isDig)

/-- Consume one literal dot. -/
def expectDot : List Char → Option (List Char)
  | '.' :: r => some r
  | _ => none

/-- Match the pattern digits-dot-digits-dot-digits at the head of the input,
each digit run greedy (maximal), returning the matched characters.  This is
the anchored step of the regex search in src/updater.py line 23. -/
def matchTripleAt (l : List Char) : Option (List Char) :=
  (readNum l).bind fun p1 =>
  (expectDot p1.2).bind fun r2 =>
  (readNum r2).bind fun p2 =>
  (expectDot p2.2).bind fun r4 =>
  (readNum r4).map fun p3 =>
  p1.1 ++ '.' :: p2.1 ++ '.' :: p3.1

/-- Leftmost regex search: try the anchored match at each position from the
left and return the first (leftmost) match. -/
def searchTriple : List Char → Option (List Char)
  | [] => none
  | c :: cs => (matchTripleAt (c :: cs)).orElse fun _ => searchTriple cs

/-- src/updater.py line 25: regex search for the first substring that looks
like a dotted triple; returns the matched substring. -/
def _extract (v : String) : Option String :=
  (searchTriple v.data).map fun l => ⟨l⟩

/-- Numeric value of a run of ASCII digits (decimal), as Python int() reads
the captured digit runs. -/
def digitsVal (l : List Char) : Nat := l.foldl (fun n c => n * 10 + (c.toNat - 48)) 0

/-- Models packaging.version.parse restricted to the plain dotted-triple
strings the extractor produces (the only strings the source ever parses):
the whole string must be digits-dot-digits-dot-digits, and the result is the
release tuple of the three decimal values.  On such equal-length all-numeric
releases the PEP-440 order coincides with lexicographic order of the tuples
(epoch, pre/post/dev segments are all absent, and trailing-zero trimming
never reorders same-length numeric tuples). -/
def parseReleaseL (l : List Char) : Option (Nat × Nat × Nat) :=
  (readNum l).bind fun p1 =>
  (expectDot p1.2).bind fun r2 =>
  (readNum r2).bind fun p2 =>
  (expectDot p2.2).bind fun r4 =>
  (readNum r4).bind fun p3 =>
  if p3.2 = [] then some (digitsVal p1.1, digitsVal p2.1, digitsVal p3.1) else none

/-- The string-level entry point of the modelled parser. -/
def parseRelease (s : String) : Option (Nat × Nat × Nat) := parseReleaseL s.data

/-- Strict lexicographic comparison of (major, minor, patch) tuples. -/
def tripleGt (r l : Nat × Nat × Nat) : Bool :=
  decide (l.1 < r.1) ||
    (decide (r.1 = l.1) &&
      (decide (l.2.1 < r.2.1) ||
        (decide (r.2.1 = l.2.1) && decide (l.2.2 < r.2.2))))

/-- src/updater.py lines 33-52: the update decision.  The remote side is the
extraction from the tag, else from the title (a missing title behaves as the
empty string); both-present compares the parsed releases with the PEP-440
order (modelled by parseRelease / tripleGt; the inner wildcard arm is
unreachable because extracted matches always parse). -/
def compare_versions (remote_tag : String) (localv : String) (title : Option String) : Bool :=
  match (_extract remote_tag).orElse (fun _ => _extract (title.getD "")), _extract localv with
  | some r, some l =>
      match parseRelease r, parseRelease l with
      | some rt, some lt => tripleGt rt lt
      | _, _ => false
  | some _, none => true
  | none, some _ => false
  | none, none => true

/-- Modelled from the spec: the anchored dotted-triple matcher of section 4.1,
returning the three numeric components directly. -/
def specTripleAt (l : List Char) : Option (Nat × Nat × Nat) :=
  (readNum l).bind fun p1 =>
  (expectDot p1.2).bind fun r2 =>
  (readNum r2).bind fun p2 =>
  (expectDot p2.2).bind fun r4 =>
  (readNum r4).map fun p3 =>
  (digitsVal p1.1, digitsVal p2.1, digitsVal p3.1)

/-- Modelled from the spec: extract of section 4.1 — scan left-to-right for
the first dotted triple of non-negative integers. -/
def specExtract : List Char → Option (Nat × Nat × Nat)
  | [] => none
  | c :: cs => (specTripleAt (c :: cs)).orElse fun _ => specExtract cs

/-- Modelled from the spec: the four-case update decision of section 4.1
(is_newer), phrased directly on the extracted numeric tuples with
lexicographic comparison. -/
def updateDecisionSpec (tag : String) (title : Option String) (localv : String) : Bool :=
  match (specExtract tag.data).orElse (fun _ => specExtract (title.getD "").data),
        specExtract localv.data with
  | some r, some l => tripleGt r l
  | some _, none => true
  | none, some _ => false
  | none, none => true

/-- One downloadable file of a release: src/updater.py reads the fields
name, size and browser_download_url of each asset dict (the url itself does
not affect any verified property and is omitted from the model). -/
structure Asset where
  name : String
  size : Nat
deriving DecidableEq

/-- Python str.startswith restricted to the ASCII literals involved. -/
def startsWithStr (s p : String) : Bool := p.data.isPrefixOf s.data

/-- Python lower-casing for one ASCII character. -/
def lowerChar (c : Char) : Char :=
  if decide ('A' ≤ c) && decide (c ≤ 'Z') then Char.ofNat (c.toNat + 32) else c

/-- Python str.lower restricted to ASCII. -/
def lowerStr (s : String) : String := ⟨s.data.map lowerChar⟩

/-- What the HTTP layer delivers for one asset request in a run: whether
session.get returns at all (no transport error), whether the response
status passes raise_for_status, and the byte lengths of the chunks
iter_content yields. -/
structure Fetch where
  connects : Bool
  okStatus : Bool
  chunks : List Nat
deriving DecidableEq

/-- Observable outcome of one _grab task: whether the open of dest in mode
wb ran (creating or truncating the file), how many bytes were written, the
done-byte values passed to tick after each nonempty chunk, and whether the
task finished without raising. -/
structure GrabResult where
  fileCreated : Bool
  written : Nat
  ticks : List Nat
  ok : Bool
deriving DecidableEq

/-- The chunk loop of _grab (src/updater.py lines 76-80): skips empty
chunks, writes each nonempty chunk, and reports offset plus cumulative
bytes after each write.  Returns the final downloaded count and the
reported done-byte values in order. -/
def grabLoop (offset : Nat) : Nat → List Nat → Nat × List Nat
  | downloaded, [] => (downloaded, [])
  | downloaded, c :: cs =>
    if c ≠ 0 then
      let r := grabLoop offset (downloaded + c) cs
      (r.1, (offset + (downloaded + c)) :: r.2)
    else grabLoop offset downloaded cs

/-- src/updater.py lines 72-80: one download task.  session.get runs first;
the open of dest in mode wb runs (truncating the file) whenever the request
returned, and only then is raise_for_status checked. -/
def _grab (offset : Nat) (f : Fetch) : GrabResult :=
  if !f.connects then ⟨false, 0, [], false⟩
  else if !f.okStatus then ⟨true, 0, [], false⟩
  else ⟨true, (grabLoop offset 0 f.chunks).1, (grabLoop offset 0 f.chunks).2, true⟩

/-- src/updater.py lines 98-100: the tick closure.  It reports only when a
progress callback was supplied and total is nonzero (Python truthiness of
both), and int(done_bytes / total * 100) is modelled as exact floor
division of the rational value. -/
def tick (hasProgress : Bool) (total : Nat) (done_bytes : Nat) : Option Nat :=
  if hasProgress && (total != 0) then some (done_bytes * 100 / total) else none

/-- src/updater.py line 94: drop assets whose name starts with the source
archive naming pattern.  Each asset is paired with the transfer the network
would deliver for it. -/
def todoOf (assets : List (Asset × Fetch)) : List (Asset × Fetch) :=
  assets.filter fun p => !(startsWithStr p.1.name "Source code")

/-- src/updater.py line 95: declared byte total of the filtered set. -/
def totalOf (assets : List (Asset × Fetch)) : Nat :=
  ((todoOf assets).map fun p => p.1.size).sum

/-- The submit loop's offset accounting (src/updater.py lines 104-110):
each filtered asset is paired with the running sum of the prior sizes. -/
def withOffsets : Nat → List (Asset × Fetch) → List ((Asset × Fetch) × Nat)
  | _, [] => []
  | off, p :: ps => (p, off) :: withOffsets (off + p.1.size) ps

/-- Destination path, target_dir joined with the asset name
(src/updater.py line 106). -/
def destOf (targetDir : String) (a : Asset) : String := targetDir ++ "/" ++ a.name

/-- One submitted task with its computed inputs and its result. -/
structure TaskRun where
  asset : Asset
  dest : String
  offset : Nat
  grab : GrabResult
deriving DecidableEq

/-- All tasks of one batch, in submit (filter) order. -/
def tasksOf (targetDir : String) (assets : List (Asset × Fetch)) : List TaskRun :=
  (withOffsets 0 (todoOf assets)).map fun pf =>
    ⟨pf.1.1, destOf targetDir pf.1.1, pf.2, _grab pf.2 pf.1.2⟩

/-- cl_path as computed by the submit loop (src/updater.py lines 107-108):
the destination of the last filtered asset whose lowercased name equals
changelog.json. -/
def clPathOf (targetDir : String) (todo : List (Asset × Fetch)) : Option String :=
  todo.foldl
    (fun acc p =>
      if lowerStr p.1.name = "changelog.json" then some (destOf targetDir p.1) else acc)
    none

/-- The as_completed loop (src/updater.py lines 112-113): results are
checked in completion order and the first failed task's exception
propagates.  Returns the index of that task, none when all succeeded. -/
def bubbleResults (tasks : List TaskRun) : List Nat → Option Nat
  | [] => none
  | i :: rest =>
    match tasks.get? i with
    | some t => if t.grab.ok then bubbleResults tasks rest else some i
    | none => bubbleResults tasks rest

/-- Observable outcome of download_all_assets: the declared total, the
per-task data, which task's error propagated (none on success), the value
passed by the final tick when that call reports, and the returned changelog
path (the ret field is none when the call raised instead of returning). -/
structure BatchRun where
  total : Nat
  tasks : List TaskRun
  errorIdx : Option Nat
  finalPercent : Option Nat
  ret : Option (Option String)

/-- src/updater.py lines 82-116, parameterised by the completion order of
the futures.  When a result bubbles an exception nothing after the pool
block runs; on success the final tick(total) fires and the changelog path
is returned. -/
def download_all_assets (assets : List (Asset × Fetch)) (targetDir : String)
    (hasProgress : Bool) (order : List Nat) : BatchRun :=
  let tasks := tasksOf targetDir assets
  match bubbleResults tasks order with
  | some i => ⟨totalOf assets, tasks, some i, none, none⟩
  | none =>
      ⟨totalOf assets, tasks, none, tick hasProgress (totalOf assets) (totalOf assets),
        some (clPathOf targetDir (todoOf assets))⟩

/-- The percent values one task passes to on_progress, in order. -/
def taskPercents (hasProgress : Bool) (total : Nat) (t : TaskRun) : List Nat :=
  t.grab.ticks.filterMap (tick hasProgress total)

/-- Per-task percent streams of a batch, in submit order. -/
def allTaskPercents (assets : List (Asset × Fetch)) (targetDir : String)
    (hasProgress : Bool) : List (List Nat) :=
  (tasksOf targetDir assets).map (taskPercents hasProgress (totalOf assets))

/-- File-system model: file contents are abstracted to their byte count.
A task that opened its file leaves exactly its written bytes there
(mode wb: full overwrite, never append). -/
def applyTask (disk : String → Option Nat) (t : TaskRun) : String → Option Nat :=
  if t.grab.fileCreated then
    fun q => if q = t.dest then some t.grab.written else disk q
  else disk

/-- Disk state after all tasks of a batch ran over a prior state (each
dest is written by at most one worker, so the order of application does
not matter for distinct destinations). -/
def diskAfter : List TaskRun → (String → Option Nat) → String → Option Nat
  | [], disk => disk
  | t :: rest, disk => diskAfter rest (applyTask disk t)

/-- Release metadata as far as fetch_latest_release touches it: the fields
the spec calls required may each be present or absent in the parsed body. -/
structure ReleaseJson where
  tag_name : Option String
  assets : Option (List Asset)

/-- One HTTP exchange with the releases endpoint, as the requests library
surfaces it: transport success, success status, and the parsed body when
the payload is well-formed. -/
structure HttpExchange where
  transportOk : Bool
  status2xx : Bool
  parsed : Option ReleaseJson

/-- Outcome of fetch_latest_release: netError covers both transport
failures raised by requests.get and the error raise_for_status raises on a
non-success status; parseError is the error r.json() raises on a malformed
body. -/
inductive FetchOutcome where
  | ok (r : ReleaseJson)
  | netError
  | parseError

/-- src/updater.py lines 57-64: requests.get, then raise_for_status, then
r.json(); the parsed body is returned with no further validation of its
fields. -/
def fetch_latest_release (resp : HttpExchange) : FetchOutcome :=
  if !resp.transportOk then .netError
  else if !resp.status2xx then .netError
  else
    match resp.parsed with
    | none => .parseError
    | some j => .ok j

/-- Modelled from the spec (section 4.3 step 4): the fixed offset of the
i-th filtered asset, the running sum of the prior assets' sizes. -/
def offsetSpec (assets : List (Asset × Fetch)) (i : Nat) : Nat :=
  (((todoOf assets).take i).map fun p => p.1.size).sum

/-- Modelled from the spec (section 4.3 step 5): cumulative bytes written
after each nonempty chunk of a stream. -/
def cumBytes : Nat → List Nat → List Nat
  | _, [] => []
  | d, c :: cs => if c ≠ 0 then (d + c) :: cumBytes (d + c) cs else cumBytes d cs

/-- The rest left by dropping digits never starts with a digit. -/
def noDigHead : List Char → Prop
  | [] => True
  | c :: _ => isDig c = false

theorem noDigHead_dot (r : List Char) : noDigHead ('.' :: r) := by
  show isDig '.' = false
  rfl

theorem dropWhile_noDigHead (l : List Char) : noDigHead (l.dropWhile isDig) := by
  induction l with
  | nil => trivial
  | cons c cs ih =>
    rw [List.dropWhile_cons]
    split
    · exact ih
    · rename_i h
      simpa [noDigHead] using h

theorem takeWhile_eq_nil_of_noDigHead : ∀ {r : List Char}, noDigHead r → r.takeWhile isDig = []
  | [], _ => rfl
  | c :: cs, h => by
    have hc : isDig c = false := h
    simp [List.takeWhile_cons, hc]

theorem dropWhile_eq_self_of_noDigHead : ∀ {r : List Char}, noDigHead r → r.dropWhile isDig = r
  | [], _ => rfl
  | c :: cs, h => by
    have hc : isDig c = false := h
    simp [List.dropWhile_cons, hc]

theorem takeWhile_append_all {l1 : List Char} (l2 : List Char)
    (h : ∀ c ∈ l1, isDig c = true) :
    (l1 ++ l2).takeWhile isDig = l1 ++ l2.takeWhile isDig := by
  induction l1 with
  | nil => simp
  | cons c cs ih =>
    have hc : isDig c = true := h c (List.mem_cons_self c cs)
    simp only [List.cons_append, List.takeWhile_cons, hc, if_true]
    exact congrArg (c :: ·) (ih fun x hx => h x (List.mem_cons_of_mem c hx))

theorem dropWhile_append_all {l1 : List Char} (l2 : List Char)
    (h : ∀ c ∈ l1, isDig c = true) :
    (l1 ++ l2).dropWhile isDig = l2.dropWhile isDig := by
  induction l1 with
  | nil => simp
  | cons c cs ih =>
    have hc : isDig c = true := h c (List.mem_cons_self c cs)
    simp only [List.cons_append, List.dropWhile_cons, hc, if_true]
    exact ih fun x hx => h x (List.mem_cons_of_mem c hx)

theorem readNum_eq_some {l d r : List Char} (h : readNum l = some (d, r)) :
    d ≠ [] ∧ (∀ c ∈ d, isDig c = true) ∧ l = d ++ r ∧ noDigHead r := by
  rw [readNum] at h
  split at h
  · exact Option.noConfusion h
  · rename_i hne
    rw [Option.some.injEq, Prod.mk.injEq] at h
    obtain ⟨hd, hr⟩ := h
    subst hd
    subst hr
    exact ⟨hne, fun c hc => List.mem_takeWhile_imp hc,
      (List.takeWhile_append_dropWhile isDig l).symm, dropWhile_noDigHead l⟩

theorem readNum_of_run {d r : List Char} (hd : d ≠ []) (hall : ∀ c ∈ d, isDig c = true)
    (hr : noDigHead r) : readNum (d ++ r) = some (d, r) := by
  have ht : (d ++ r).takeWhile isDig = d := by
    rw [takeWhile_append_all r hall, takeWhile_eq_nil_of_noDigHead hr, List.append_nil]
  have hdr : (d ++ r).dropWhile isDig = r := by
    rw [dropWhile_append_all r hall, dropWhile_eq_self_of_noDigHead hr]
  rw [readNum, ht, hdr]
  simp [hd]

theorem matchTripleAt_parse {l m : List Char} (h : matchTripleAt l = some m) :
    ∃ t, parseReleaseL m = some t ∧ specTripleAt l = some t := by
  rw [matchTripleAt] at h
  rw [Option.bind_eq_some] at h
  obtain ⟨⟨d1, r1⟩, h1, h⟩ := h
  rw [Option.bind_eq_some] at h
  obtain ⟨r2, hdot1, h⟩ := h
  rw [Option.bind_eq_some] at h
  obtain ⟨⟨d2, r3⟩, h2, h⟩ := h
  rw [Option.bind_eq_some] at h
  obtain ⟨r4, hdot2, h⟩ := h
  rw [Option.map_eq_some'] at h
  obtain ⟨⟨d3, r5⟩, h3, hm⟩ := h
  obtain ⟨d1ne, d1all, -, -⟩ := readNum_eq_some h1
  obtain ⟨d2ne, d2all, -, -⟩ := readNum_eq_some h2
  obtain ⟨d3ne, d3all, -, -⟩ := readNum_eq_some h3
  subst hm
  refine ⟨(digitsVal d1, digitsVal d2, digitsVal d3), ?_, ?_⟩
  · have e1 := @readNum_of_run d1 ('.' :: (d2 ++ '.' :: d3)) d1ne d1all (noDigHead_dot _)
    have e3 := @readNum_of_run d2 ('.' :: d3) d2ne d2all (noDigHead_dot _)
    have e5 : readNum d3 = some (d3, []) := by
      have h0 := @readNum_of_run d3 [] d3ne d3all trivial
      rwa [List.append_nil] at h0
    simp [parseReleaseL, e1, e3, e5, expectDot]
  · simp [specTripleAt, h1, hdot1, h2, hdot2, h3]

theorem matchTripleAt_none {l : List Char} (h : matchTripleAt l = none) :
    specTripleAt l = none := by
  rw [matchTripleAt] at h
  rw [specTripleAt]
  rcases h1 : readNum l with _ | p1
  · simp
  · rw [h1] at h
    simp only [Option.some_bind] at h ⊢
    rcases hdot1 : expectDot p1.2 with _ | r2
    · simp
    · rw [hdot1] at h
      simp only [Option.some_bind] at h ⊢
      rcases h2 : readNum r2 with _ | p2
      · simp
      · rw [h2] at h
        simp only [Option.some_bind] at h ⊢
        rcases hdot2 : expectDot p2.2 with _ | r4
        · simp
        · rw [hdot2] at h
          simp only [Option.some_bind] at h ⊢
          rcases h3 : readNum r4 with _ | p3
          · simp
          · rw [h3] at h
            simp at h

theorem searchTriple_parse : ∀ {l m : List Char}, searchTriple l = some m →
    ∃ t, parseReleaseL m = some t ∧ specExtract l = some t := by
  intro l
  induction l with
  | nil => intro m h; cases h
  | cons c cs ih =>
    intro m h
    rw [searchTriple] at h
    rcases hA : matchTripleAt (c :: cs) with _ | m'
    · rw [hA] at h
      have h' : searchTriple cs = some m := h
      obtain ⟨t, hp, hs⟩ := ih h'
      refine ⟨t, hp, ?_⟩
      rw [specExtract, matchTripleAt_none hA]
      exact hs
    · rw [hA] at h
      have h' : some m' = some m := h
      cases h'
      obtain ⟨t, hp, hs⟩ := matchTripleAt_parse hA
      refine ⟨t, hp, ?_⟩
      rw [specExtract, hs]
      rfl

theorem searchTriple_none : ∀ {l : List Char}, searchTriple l = none →
    specExtract l = none := by
  intro l
  induction l with
  | nil => intro _; rfl
  | cons c cs ih =>
    intro h
    rw [searchTriple] at h
    rcases hA : matchTripleAt (c :: cs) with _ | m'
    · rw [hA] at h
      have h' : searchTriple cs = none := h
      rw [specExtract, matchTripleAt_none hA]
      exact ih h'
    · rw [hA] at h
      exact Option.noConfusion h

theorem extract_some {s r : String} (h : _extract s = some r) :
    ∃ t, parseRelease r = some t ∧ specExtract s.data = some t := by
  rw [_extract, Option.map_eq_some'] at h
  obtain ⟨m, hm, hr⟩ := h
  obtain ⟨t, hp, hs⟩ := searchTriple_parse hm
  refine ⟨t, ?_, hs⟩
  rw [← hr]
  exact hp

theorem extract_none {s : String} (h : _extract s = none) : specExtract s.data = none := by
  rw [_extract, Option.map_eq_none'] at h
  exact searchTriple_none h

/-- C1: for every remote tag, optional title and local version, the update
decision compare_versions agrees with the four-case rule of the spec: when
both sides have an extractable dotted triple it is true iff the remote triple
is strictly greater than the local one in lexicographic (major, minor, patch)
order; remote-only yields true, local-only yields false, neither yields true;
and it always returns a definite boolean. -/
theorem C1_compare_versions_decision (tag localv : String) (title : Option String) :
    compare_versions tag localv title = updateDecisionSpec tag title localv := by
  unfold compare_versions updateDecisionSpec
  rcases hT : _extract tag with _ | rT
  · have hT' := extract_none hT
    rw [hT']
    simp only [Option.orElse]
    rcases hN : _extract (title.getD "") with _ | rN
    · have hN' := extract_none hN
      rw [hN']
      rcases hL : _extract localv with _ | rL
      · rw [extract_none hL]
      · obtain ⟨lt, hpL, hsL⟩ := extract_some hL
        rw [hsL]
    · obtain ⟨rt, hpN, hsN⟩ := extract_some hN
      rw [hsN]
      rcases hL : _extract localv with _ | rL
      · rw [extract_none hL]
      · obtain ⟨lt, hpL, hsL⟩ := extract_some hL
        rw [hsL]
        simp [hpN, hpL]
  · obtain ⟨rt, hpT, hsT⟩ := extract_some hT
    rw [hsT]
    simp only [Option.orElse]
    rcases hL : _extract localv with _ | rL
    · rw [extract_none hL]
    · obtain ⟨lt, hpL, hsL⟩ := extract_some hL
      rw [hsL]
      simp [hpT, hpL]

theorem bubbleResults_all_ok (tasks : List TaskRun) (order : List Nat)
    (hok : ∀ t ∈ tasks, t.grab.ok = true) : bubbleResults tasks order = none := by
  induction order with
  | nil => rfl
  | cons i rest ih =>
    rw [bubbleResults]
    rcases hg : tasks.get? i with _ | t
    · exact ih
    · have h := hok t (List.get?_mem hg)
      simp [h, ih]

theorem grabLoop_ticks_lb : ∀ (cs : List Nat) (off d x : Nat),
    x ∈ (grabLoop off d cs).2 → off + d ≤ x := by
  intro cs
  induction cs with
  | nil => intro off d x hx; cases hx
  | cons c cs ih =>
    intro off d x hx
    by_cases hc : c = 0
    · rw [grabLoop] at hx
      simp only [hc, ne_eq, not_true_eq_false, if_false] at hx
      exact ih off d x hx
    · rw [grabLoop] at hx
      simp only [hc, ne_eq, not_false_eq_true, if_true] at hx
      rcases List.mem_cons.mp hx with rfl | hx
      · omega
      · have h := ih off (d + c) x hx
        omega

theorem grabLoop_ticks_chain : ∀ (cs : List Nat) (off d : Nat),
    ((grabLoop off d cs).2).Chain' (· ≤ ·) := by
  intro cs
  induction cs with
  | nil => intro off d; rw [grabLoop]; exact List.chain'_nil
  | cons c cs ih =>
    intro off d
    by_cases hc : c = 0
    · rw [grabLoop]
      simp only [hc, ne_eq, not_true_eq_false, if_false]
      exact ih off d
    · rw [grabLoop]
      simp only [hc, ne_eq, not_false_eq_true, if_true]
      rw [List.chain'_cons']
      refine ⟨?_, ih off (d + c)⟩
      intro y hy
      have h := grabLoop_ticks_lb cs off (d + c) y (List.mem_of_mem_head? hy)
      omega

theorem filterMap_tick_of_silent {hasProgress : Bool} {total : Nat}
    (hcond : (hasProgress && (total != 0)) = false) (l : List Nat) :
    l.filterMap (tick hasProgress total) = [] := by
  induction l with
  | nil => rfl
  | cons d ds ih => simp [List.filterMap_cons, tick, hcond, ih]

theorem filterMap_tick_of_live {hasProgress : Bool} {total : Nat}
    (hcond : (hasProgress && (total != 0)) = true) (l : List Nat) :
    l.filterMap (tick hasProgress total) = l.map fun d => d * 100 / total := by
  have ht : tick hasProgress total = fun d => some (d * 100 / total) := by
    funext d
    simp [tick, hcond]
  rw [ht]
  exact congrFun (List.filterMap_eq_map fun d => d * 100 / total) l

theorem chain_filterMap_tick (hasProgress : Bool) (total : Nat) (l : List Nat)
    (hl : l.Chain' (· ≤ ·)) : (l.filterMap (tick hasProgress total)).Chain' (· ≤ ·) := by
  rcases hcond : hasProgress && (total != 0) with _ | _
  · rw [filterMap_tick_of_silent hcond]
    exact List.chain'_nil
  · rw [filterMap_tick_of_live hcond, List.chain'_map]
    exact hl.imp fun a b h => Nat.div_le_div_right (Nat.mul_le_mul_right 100 h)

theorem grab_ticks_chain (offset : Nat) (f : Fetch) :
    ((_grab offset f).ticks).Chain' (· ≤ ·) := by
  rw [_grab]
  split
  · exact List.chain'_nil
  · split
    · exact List.chain'_nil
    · exact grabLoop_ticks_chain f.chunks offset 0

theorem withOffsets_mem : ∀ (l : List (Asset × Fetch)) (off : Nat)
    (x : (Asset × Fetch) × Nat), x ∈ withOffsets off l → x.1 ∈ l := by
  intro l
  induction l with
  | nil => intro off x hx; cases hx
  | cons p ps ih =>
    intro off x hx
    rw [withOffsets] at hx
    rcases List.mem_cons.mp hx with rfl | hx
    · exact List.mem_cons_self p ps
    · exact List.mem_cons_of_mem p (ih _ x hx)

/-- C3 counterexample: a transport-successful, status-successful exchange
whose well-formed body lacks both the tag and the assets field is returned
as a normal result by fetch_latest_release; no error of any kind is
raised, contradicting the claim that such responses fail. -/
theorem C3_counterexample :
    fetch_latest_release ⟨true, true, some ⟨none, none⟩⟩ = FetchOutcome.ok ⟨none, none⟩ := rfl

/-- C3 amended: fetch_latest_release fails with a network error on
transport failure or a non-success HTTP status and with a parse error when
the response body is malformed, but performs no schema validation: every
well-formed body is returned as-is, even when tag or assets are absent. -/
theorem C3_fetch_latest_release_errors (resp : HttpExchange) :
    (resp.transportOk = false ∨ resp.status2xx = false →
      fetch_latest_release resp = FetchOutcome.netError) ∧
    (resp.transportOk = true → resp.status2xx = true → resp.parsed = none →
      fetch_latest_release resp = FetchOutcome.parseError) ∧
    (∀ j, resp.transportOk = true → resp.status2xx = true → resp.parsed = some j →
      fetch_latest_release resp = FetchOutcome.ok j) := by
  obtain ⟨t, s, p⟩ := resp
  refine ⟨?_, ?_, ?_⟩
  · rintro (rfl | rfl)
    · rfl
    · cases t <;> rfl
  · rintro rfl rfl rfl
    rfl
  · rintro j rfl rfl rfl
    rfl

/-- C3 amended, witness at a concrete failing exchange. -/
theorem C3_fetch_latest_release_errors_witness :
    fetch_latest_release ⟨false, true, none⟩ = FetchOutcome.netError :=
  (C3_fetch_latest_release_errors ⟨false, true, none⟩).1 (Or.inl rfl)

/-- C5: every downloaded task's asset name does not begin with the source
archive naming pattern; an asset is in the filtered set exactly when it is
in the input and its name does not begin with that pattern; and the
declared total counts exactly the non-excluded assets' sizes, the excluded
ones contributing nothing. -/
theorem C5_filter_and_total (assets : List (Asset × Fetch)) (targetDir : String) :
    (∀ t ∈ tasksOf targetDir assets, startsWithStr t.asset.name "Source code" = false) ∧
    (∀ p : Asset × Fetch, p ∈ todoOf assets ↔
      p ∈ assets ∧ startsWithStr p.1.name "Source code" = false) ∧
    totalOf assets =
      (assets.map fun p =>
        if startsWithStr p.1.name "Source code" then 0 else p.1.size).sum := by
  refine ⟨?_, ?_, ?_⟩
  · intro t ht
    rw [tasksOf] at ht
    obtain ⟨pf, hpf, hteq⟩ := List.mem_map.mp ht
    have hmem : pf.1 ∈ todoOf assets := withOffsets_mem _ 0 pf hpf
    rw [todoOf] at hmem
    have hfilt := (List.mem_filter.mp hmem).2
    rw [Bool.not_eq_true'] at hfilt
    rw [← hteq]
    exact hfilt
  · intro p
    rw [todoOf, List.mem_filter, Bool.not_eq_true']
  · rw [totalOf, todoOf]
    induction assets with
    | nil => rfl
    | cons p ps ih =>
      rw [List.filter_cons]
      rcases hsw : startsWithStr p.1.name "Source code" with _ | _
      · simp [hsw, ih]
      · simp [hsw, ih]

/-- C5, witness: in a concrete batch the source archive is excluded. -/
theorem C5_filter_and_total_witness :
    (⟨"Source code (zip)", 5⟩, (⟨true, true, []⟩ : Fetch)) ∈
        [((⟨"Source code (zip)", 5⟩ : Asset), (⟨true, true, []⟩ : Fetch)),
         (⟨"app.exe", 3⟩, ⟨true, true, [2, 1]⟩)] ∧
      startsWithStr "Source code (zip)" "Source code" = true :=
  ⟨by decide, by
    have h := (C5_filter_and_total
      [((⟨"Source code (zip)", 5⟩ : Asset), (⟨true, true, []⟩ : Fetch)),
       (⟨"app.exe", 3⟩, ⟨true, true, [2, 1]⟩)] "d").2.1
        (⟨"Source code (zip)", 5⟩, ⟨true, true, []⟩)
    by_contra hne
    have hfalse : startsWithStr "Source code (zip)" "Source code" = false :=
      Bool.not_eq_true _ ▸ hne
    have hmem := h.mpr ⟨by decide, hfalse⟩
    have : startsWithStr "Source code (zip)" "Source code" = true := by decide
    rw [this] at hfalse
    exact Bool.noConfusion hfalse⟩

/-- C2 counterexample: a batch whose single task succeeds with declared
size 0 returns normally, yet the progress callback is never invoked — in
particular no final call with value 100 is made, contradicting the claim
that the final 100 report is still made when the total is 0. -/
theorem C2_counterexample :
    (download_all_assets [(⟨"a", 0⟩, ⟨true, true, []⟩)] "d" true [0]).tasks =
      [⟨⟨"a", 0⟩, "d/a", 0, ⟨true, 0, [], true⟩⟩] ∧
    (download_all_assets [(⟨"a", 0⟩, ⟨true, true, []⟩)] "d" true [0]).ret = some none ∧
    (download_all_assets [(⟨"a", 0⟩, ⟨true, true, []⟩)] "d" true [0]).finalPercent = none ∧
    allTaskPercents [(⟨"a", 0⟩, ⟨true, true, []⟩)] "d" true = [[]] :=
  ⟨rfl, rfl, rfl, rfl⟩

/-- C2 amended: when every task of the batch succeeds and a progress
callback is supplied, the final tick reports exactly 100 whenever the
declared total is nonzero; when the declared total is zero the final tick
makes no call at all (progress reporting is entirely a no-op). -/
theorem C2_final_tick (assets : List (Asset × Fetch)) (targetDir : String) (order : List Nat)
    (hok : ∀ t ∈ tasksOf targetDir assets, t.grab.ok = true) :
    (totalOf assets ≠ 0 →
      (download_all_assets assets targetDir true order).finalPercent = some 100) ∧
    (totalOf assets = 0 →
      (download_all_assets assets targetDir true order).finalPercent = none) := by
  have hb : bubbleResults (tasksOf targetDir assets) order = none :=
    bubbleResults_all_ok _ _ hok
  constructor
  · intro ht
    have h100 : totalOf assets * 100 / totalOf assets = 100 :=
      Nat.mul_div_cancel_left 100 (Nat.pos_of_ne_zero ht)
    simp [download_all_assets, hb, tick, ht, h100]
  · intro ht
    simp [download_all_assets, hb, tick, ht]

/-- C2 amended, witness at a concrete one-asset batch of total 1. -/
theorem C2_final_tick_witness :
    (download_all_assets [(⟨"a", 1⟩, ⟨true, true, [1]⟩)] "d" true [0]).finalPercent =
      some 100 :=
  (C2_final_tick [(⟨"a", 1⟩, ⟨true, true, [1]⟩)] "d" [0] (by decide)).1 (by decide)

/-- C9: the sequence of percent values a single task passes to the
progress callback is monotonically non-decreasing (per-task monotonicity,
independent of other tasks). -/
theorem C9_task_monotone (assets : List (Asset × Fetch)) (targetDir : String)
    (hasProgress : Bool) (t : TaskRun) (ht : t ∈ tasksOf targetDir assets) :
    (taskPercents hasProgress (totalOf assets) t).Chain' (· ≤ ·) := by
  rw [tasksOf] at ht
  obtain ⟨pf, hpf, hteq⟩ := List.mem_map.mp ht
  rw [← hteq, taskPercents]
  exact chain_filterMap_tick _ _ _ (grab_ticks_chain pf.2 pf.1.2)

/-- C9, witness: a concrete task of a concrete batch has non-decreasing
reports. -/
theorem C9_task_monotone_witness :
    (⟨⟨"a", 3⟩, "d/a", 0, ⟨true, 3, [2, 3], true⟩⟩ : TaskRun) ∈
        tasksOf "d" [(⟨"a", 3⟩, ⟨true, true, [2, 1]⟩)] ∧
      (taskPercents true (totalOf [(⟨"a", 3⟩, ⟨true, true, [2, 1]⟩)])
        ⟨⟨"a", 3⟩, "d/a", 0, ⟨true, 3, [2, 3], true⟩⟩).Chain' (· ≤ ·) :=
  ⟨by decide, C9_task_monotone [(⟨"a", 3⟩, ⟨true, true, [2, 1]⟩)] "d" true _ (by decide)⟩

theorem withOffsets_get? : ∀ (l : List (Asset × Fetch)) (off i : Nat),
    (withOffsets off l).get? i =
      (l.get? i).map fun p => (p, off + ((l.take i).map fun q => q.1.size).sum) := by
  intro l
  induction l with
  | nil => intro off i; cases i <;> rfl
  | cons p ps ih =>
    intro off i
    cases i with
    | zero => simp [withOffsets]
    | succ n =>
      rw [withOffsets]
      show (withOffsets (off + p.1.size) ps).get? n = _
      rw [ih (off + p.1.size) n]
      simp [Nat.add_assoc]

theorem tasksOf_get? (targetDir : String) (assets : List (Asset × Fetch)) (i : Nat) :
    (tasksOf targetDir assets).get? i =
      ((todoOf assets).get? i).map fun p =>
        ⟨p.1, destOf targetDir p.1, offsetSpec assets i,
          _grab (offsetSpec assets i) p.2⟩ := by
  rw [tasksOf, List.get?_map, withOffsets_get?]
  cases h : (todoOf assets).get? i <;> simp [offsetSpec]

theorem withOffsets_length : ∀ (l : List (Asset × Fetch)) (off : Nat),
    (withOffsets off l).length = l.length := by
  intro l
  induction l with
  | nil => intro off; rfl
  | cons p ps ih => intro off; rw [withOffsets, List.length_cons, List.length_cons, ih]

theorem tasksOf_length (targetDir : String) (assets : List (Asset × Fetch)) :
    (tasksOf targetDir assets).length = (todoOf assets).length := by
  rw [tasksOf, List.length_map, withOffsets_length]

theorem grabLoop_snd : ∀ (cs : List Nat) (off d : Nat),
    (grabLoop off d cs).2 = (cumBytes d cs).map (off + ·) := by
  intro cs
  induction cs with
  | nil => intro off d; rfl
  | cons c cs ih =>
    intro off d
    by_cases hc : c = 0
    · rw [grabLoop, cumBytes]
      simp only [hc, ne_eq, not_true_eq_false, if_false]
      exact ih off d
    · rw [grabLoop, cumBytes]
      simp only [hc, ne_eq, not_false_eq_true, if_true, List.map_cons]
      rw [ih off (d + c)]

theorem grabLoop_fst : ∀ (cs : List Nat) (off d : Nat),
    (grabLoop off d cs).1 = d + cs.sum := by
  intro cs
  induction cs with
  | nil => intro off d; simp [grabLoop]
  | cons c cs ih =>
    intro off d
    by_cases hc : c = 0
    · rw [grabLoop]
      simp only [hc, ne_eq, not_true_eq_false, if_false]
      rw [ih off d, List.sum_cons]
      omega
    · rw [grabLoop]
      simp only [hc, ne_eq, not_false_eq_true, if_true]
      rw [ih off (d + c), List.sum_cons]
      omega

theorem grabLoop_ticks_ub : ∀ (cs : List Nat) (off d x : Nat),
    x ∈ (grabLoop off d cs).2 → x ≤ off + d + cs.sum := by
  intro cs
  induction cs with
  | nil => intro off d x hx; cases hx
  | cons c cs ih =>
    intro off d x hx
    by_cases hc : c = 0
    · rw [grabLoop] at hx
      simp only [hc, ne_eq, not_true_eq_false, if_false] at hx
      have h := ih off d x hx
      rw [List.sum_cons]
      omega
    · rw [grabLoop] at hx
      simp only [hc, ne_eq, not_false_eq_true, if_true] at hx
      rw [List.sum_cons]
      rcases List.mem_cons.mp hx with rfl | hx
      · omega
      · have h := ih off (d + c) x hx
        omega

theorem grab_ticks_ub (off : Nat) (f : Fetch) (x : Nat)
    (hx : x ∈ (_grab off f).ticks) : x ≤ off + f.chunks.sum := by
  rw [_grab] at hx
  split at hx
  · cases hx
  · split at hx
    · cases hx
    · have h := grabLoop_ticks_ub f.chunks off 0 x hx
      omega

theorem tick_eq_some {hasProgress : Bool} {total done v : Nat}
    (h : tick hasProgress total done = some v) :
    total ≠ 0 ∧ v = done * 100 / total := by
  rw [tick] at h
  split at h
  · rename_i hcond
    rw [Bool.and_eq_true] at hcond
    have ht : total ≠ 0 := by simpa using hcond.2
    injection h with h
    exact ⟨ht, h.symm⟩
  · exact Option.noConfusion h

theorem offset_add_size_le_total (assets : List (Asset × Fetch)) (i : Nat)
    (p : Asset × Fetch) (hp : (todoOf assets).get? i = some p) :
    offsetSpec assets i + p.1.size ≤ totalOf assets := by
  obtain ⟨hlen, hget⟩ := List.get?_eq_some.mp hp
  have hsplit : totalOf assets =
      (((todoOf assets).take i).map fun q => q.1.size).sum +
        (((todoOf assets).drop i).map fun q => q.1.size).sum := by
    rw [totalOf]
    calc ((todoOf assets).map fun q => q.1.size).sum
        = ((((todoOf assets).take i ++ (todoOf assets).drop i).map fun q => q.1.size)).sum := by
          rw [List.take_append_drop]
      _ = (((todoOf assets).take i).map fun q => q.1.size).sum +
            (((todoOf assets).drop i).map fun q => q.1.size).sum := by
          rw [List.map_append, List.sum_append]
  have hdrop : (todoOf assets).drop i =
      (todoOf assets).get ⟨i, hlen⟩ :: (todoOf assets).drop (i + 1) :=
    List.drop_eq_get_cons hlen
  rw [offsetSpec, hsplit, hdrop, hget, List.map_cons, List.sum_cons]
  omega

theorem bubbleResults_eq_find (tasks : List TaskRun) : ∀ (order : List Nat),
    bubbleResults tasks order = order.find? fun i =>
      match tasks.get? i with
      | some t => !t.grab.ok
      | none => false := by
  intro order
  induction order with
  | nil => rfl
  | cons i rest ih =>
    rw [bubbleResults, List.find?_cons]
    rcases hg : tasks.get? i with _ | t
    · exact ih
    · cases hok : t.grab.ok
      · simp [hok]
      · simp [hok, ih]

theorem bubble_isSome_of_fail (targetDir : String) (assets : List (Asset × Fetch))
    (order : List Nat)
    (hperm : order.Perm (List.range (tasksOf targetDir assets).length))
    (hfail : ∃ t ∈ tasksOf targetDir assets, t.grab.ok = false) :
    (bubbleResults (tasksOf targetDir assets) order).isSome = true := by
  rw [bubbleResults_eq_find]
  obtain ⟨t, ht, hok⟩ := hfail
  obtain ⟨i, hi⟩ := List.get?_of_mem ht
  rw [List.find?_isSome]
  refine ⟨i, ?_, ?_⟩
  · apply hperm.mem_iff.mpr
    rw [List.mem_range]
    exact (List.get?_eq_some.mp hi).1
  · simp only [hi]
    rw [hok]
    rfl

theorem applyTask_ne (disk : String → Option Nat) (u : TaskRun) (q : String)
    (h : q ≠ u.dest) : applyTask disk u q = disk q := by
  rw [applyTask]
  split
  · simp [h]
  · rfl

theorem applyTask_self (disk : String → Option Nat) (u : TaskRun)
    (h : u.grab.fileCreated = true) : applyTask disk u u.dest = some u.grab.written := by
  rw [applyTask, if_pos h]
  simp

theorem diskAfter_of_not_mem : ∀ (tasks : List TaskRun) (disk : String → Option Nat)
    (q : String), (∀ t ∈ tasks, t.dest ≠ q) → diskAfter tasks disk q = disk q := by
  intro tasks
  induction tasks with
  | nil => intro disk q _; rfl
  | cons u rest ih =>
    intro disk q h
    rw [diskAfter]
    rw [ih (applyTask disk u) q fun t ht => h t (List.mem_cons_of_mem u ht)]
    exact applyTask_ne disk u q fun hq => h u (List.mem_cons_self u rest) hq.symm

theorem diskAfter_created : ∀ (tasks : List TaskRun) (disk : String → Option Nat)
    (t : TaskRun), t ∈ tasks → t.grab.fileCreated = true →
    ((tasks.map fun s => s.dest).Nodup) →
    diskAfter tasks disk t.dest = some t.grab.written := by
  intro tasks
  induction tasks with
  | nil => intro disk t ht; cases ht
  | cons u rest ih =>
    intro disk t ht hc hnodup
    rw [List.map_cons, List.nodup_cons] at hnodup
    rw [diskAfter]
    rcases List.mem_cons.mp ht with rfl | ht'
    · have hno : ∀ s ∈ rest, s.dest ≠ t.dest := by
        intro s hs heq
        exact hnodup.1 (heq ▸ List.mem_map_of_mem (fun r => r.dest) hs)
      rw [diskAfter_of_not_mem rest (applyTask disk t) t.dest hno]
      exact applyTask_self disk t hc
    · exact ih (applyTask disk u) t ht' hc hnodup.2

theorem clFold_no_match (targetDir : String) : ∀ (todo : List (Asset × Fetch))
    (acc : Option String), (∀ p ∈ todo, lowerStr p.1.name ≠ "changelog.json") →
    todo.foldl
      (fun acc p =>
        if lowerStr p.1.name = "changelog.json" then some (destOf targetDir p.1) else acc)
      acc = acc := by
  intro todo
  induction todo with
  | nil => intro acc _; rfl
  | cons q rest ih =>
    intro acc h
    rw [List.foldl_cons, if_neg (h q (List.mem_cons_self q rest))]
    exact ih acc fun p hp => h p (List.mem_cons_of_mem q hp)

theorem clFold_match (targetDir : String) : ∀ (todo : List (Asset × Fetch)),
    (∃ p ∈ todo, lowerStr p.1.name = "changelog.json") →
    ∃ p ∈ todo, lowerStr p.1.name = "changelog.json" ∧
      ∀ acc, todo.foldl
        (fun acc p =>
          if lowerStr p.1.name = "changelog.json" then some (destOf targetDir p.1) else acc)
        acc = some (destOf targetDir p.1) := by
  intro todo
  induction todo with
  | nil => rintro ⟨p, hp, -⟩; cases hp
  | cons q rest ih =>
    intro hex
    by_cases hrest : ∃ p ∈ rest, lowerStr p.1.name = "changelog.json"
    · obtain ⟨p, hp, hck, hfold⟩ := ih hrest
      refine ⟨p, List.mem_cons_of_mem q hp, hck, fun acc => ?_⟩
      rw [List.foldl_cons]
      exact hfold _
    · obtain ⟨p, hp, hck⟩ := hex
      rcases List.mem_cons.mp hp with rfl | hp'
      · refine ⟨p, List.mem_cons_self p rest, hck, fun acc => ?_⟩
        rw [List.foldl_cons, if_pos hck]
        exact clFold_no_match targetDir rest _ fun r hr heq => hrest ⟨r, hr, heq⟩
      · exact absurd ⟨p, hp', hck⟩ hrest

theorem download_success_eq (assets : List (Asset × Fetch)) (targetDir : String)
    (hasProgress : Bool) (order : List Nat)
    (hsucc : bubbleResults (tasksOf targetDir assets) order = none) :
    download_all_assets assets targetDir hasProgress order =
      ⟨totalOf assets, tasksOf targetDir assets, none,
        tick hasProgress (totalOf assets) (totalOf assets),
        some (clPathOf targetDir (todoOf assets))⟩ := by
  simp [download_all_assets, hsucc]

theorem download_fail_eq (assets : List (Asset × Fetch)) (targetDir : String)
    (hasProgress : Bool) (order : List Nat) (j : Nat)
    (hfail : bubbleResults (tasksOf targetDir assets) order = some j) :
    download_all_assets assets targetDir hasProgress order =
      ⟨totalOf assets, tasksOf targetDir assets, some j, none, none⟩ := by
  simp [download_all_assets, hfail]

/-- C4: the i-th filtered asset's task is assigned the fixed byte offset
equal to the running sum of the sizes of the prior filtered assets, decided
at submit time; and when the transfer streams and reporting is active, the
values that task reports are exactly
floor((offset + bytes written so far) * 100 / total) after each nonempty
chunk — a function of that task's own offset and stream only, independent
of other tasks' completion order. -/
theorem C4_offsets_and_percent_formula (assets : List (Asset × Fetch)) (targetDir : String)
    (i : Nat) (p : Asset × Fetch) (hp : (todoOf assets).get? i = some p)
    (hconn : p.2.connects = true) (hstat : p.2.okStatus = true)
    (htot : totalOf assets ≠ 0) :
    (tasksOf targetDir assets).get? i =
      some ⟨p.1, destOf targetDir p.1, offsetSpec assets i,
        _grab (offsetSpec assets i) p.2⟩ ∧
    taskPercents true (totalOf assets)
        ⟨p.1, destOf targetDir p.1, offsetSpec assets i, _grab (offsetSpec assets i) p.2⟩ =
      (cumBytes 0 p.2.chunks).map
        fun d => (offsetSpec assets i + d) * 100 / totalOf assets := by
  constructor
  · rw [tasksOf_get?, hp]
    rfl
  · rw [taskPercents]
    have hg : (_grab (offsetSpec assets i) p.2).ticks =
        (cumBytes 0 p.2.chunks).map (offsetSpec assets i + ·) := by
      rw [_grab]
      simp only [hconn, hstat, Bool.not_true, Bool.false_eq_true, if_false]
      exact grabLoop_snd p.2.chunks (offsetSpec assets i) 0
    rw [hg]
    have hcond : (true && (totalOf assets != 0)) = true := by
      simp [htot]
    rw [filterMap_tick_of_live hcond, List.map_map]
    rfl

/-- C4, witness at a concrete two-asset batch, checking the second task. -/
theorem C4_offsets_and_percent_formula_witness :
    (todoOf [(⟨"a", 1⟩, ⟨true, true, [1]⟩), (⟨"b", 2⟩, ⟨true, true, [2]⟩)]).get? 1 =
        some (⟨"b", 2⟩, ⟨true, true, [2]⟩) ∧
      totalOf [(⟨"a", 1⟩, ⟨true, true, [1]⟩), (⟨"b", 2⟩, ⟨true, true, [2]⟩)] ≠ 0 ∧
      ((tasksOf "d" [(⟨"a", 1⟩, ⟨true, true, [1]⟩), (⟨"b", 2⟩, ⟨true, true, [2]⟩)]).get? 1 =
        some ⟨⟨"b", 2⟩, destOf "d" ⟨"b", 2⟩,
          offsetSpec [(⟨"a", 1⟩, ⟨true, true, [1]⟩), (⟨"b", 2⟩, ⟨true, true, [2]⟩)] 1,
          _grab (offsetSpec [(⟨"a", 1⟩, ⟨true, true, [1]⟩), (⟨"b", 2⟩, ⟨true, true, [2]⟩)] 1)
            ⟨true, true, [2]⟩⟩ ∧
      taskPercents true
          (totalOf [(⟨"a", 1⟩, ⟨true, true, [1]⟩), (⟨"b", 2⟩, ⟨true, true, [2]⟩)])
          ⟨⟨"b", 2⟩, destOf "d" ⟨"b", 2⟩,
            offsetSpec [(⟨"a", 1⟩, ⟨true, true, [1]⟩), (⟨"b", 2⟩, ⟨true, true, [2]⟩)] 1,
            _grab (offsetSpec [(⟨"a", 1⟩, ⟨true, true, [1]⟩), (⟨"b", 2⟩, ⟨true, true, [2]⟩)] 1)
              ⟨true, true, [2]⟩⟩ =
        (cumBytes 0 [2]).map
          fun d =>
            (offsetSpec [(⟨"a", 1⟩, ⟨true, true, [1]⟩), (⟨"b", 2⟩, ⟨true, true, [2]⟩)] 1 + d) *
              100 /
              totalOf [(⟨"a", 1⟩, ⟨true, true, [1]⟩), (⟨"b", 2⟩, ⟨true, true, [2]⟩)]) :=
  ⟨by decide, by decide,
    C4_offsets_and_percent_formula
      [(⟨"a", 1⟩, ⟨true, true, [1]⟩), (⟨"b", 2⟩, ⟨true, true, [2]⟩)] "d" 1
      (⟨"b", 2⟩, ⟨true, true, [2]⟩) (by decide) rfl rfl (by decide)⟩

/-- C6: when the batch returns normally, the returned value is the
destination path of a filtered asset whose lowercased name equals
changelog.json when such an asset exists, and the absent option when no
such asset exists. -/
theorem C6_changelog_return (assets : List (Asset × Fetch)) (targetDir : String)
    (hasProgress : Bool) (order : List Nat)
    (hsucc : bubbleResults (tasksOf targetDir assets) order = none) :
    ((∃ p ∈ todoOf assets, lowerStr p.1.name = "changelog.json") →
      ∃ p ∈ todoOf assets, lowerStr p.1.name = "changelog.json" ∧
        (download_all_assets assets targetDir hasProgress order).ret =
          some (some (destOf targetDir p.1))) ∧
    ((∀ p ∈ todoOf assets, lowerStr p.1.name ≠ "changelog.json") →
      (download_all_assets assets targetDir hasProgress order).ret = some none) := by
  rw [download_success_eq assets targetDir hasProgress order hsucc]
  constructor
  · intro hex
    obtain ⟨p, hp, hck, hfold⟩ := clFold_match targetDir (todoOf assets) hex
    refine ⟨p, hp, hck, ?_⟩
    show some (clPathOf targetDir (todoOf assets)) = _
    rw [clPathOf, hfold none]
  · intro hnone
    show some (clPathOf targetDir (todoOf assets)) = some none
    rw [clPathOf, clFold_no_match targetDir (todoOf assets) none hnone]

/-- C6, witness: a concrete successful batch without a changelog asset
returns the absent option. -/
theorem C6_changelog_return_witness :
    (download_all_assets [(⟨"a", 1⟩, ⟨true, true, [1]⟩)] "d" true [0]).ret = some none :=
  (C6_changelog_return [(⟨"a", 1⟩, ⟨true, true, [1]⟩)] "d" true [0] (by decide)).2
    (by decide)

/-- C7: when at least one task of the batch fails, download_all_assets
raises instead of returning (ret is absent), the propagated error is the
first failing task in completion order, files of tasks that opened their
destination are left on disk holding exactly the bytes written (no
cleanup), and their content is a full overwrite independent of any prior
disk state (never append or resume). -/
theorem C7_batch_failure (assets : List (Asset × Fetch)) (targetDir : String)
    (hasProgress : Bool) (order : List Nat) (disk0 disk1 : String → Option Nat)
    (hperm : order.Perm (List.range (tasksOf targetDir assets).length))
    (hfail : ∃ t ∈ tasksOf targetDir assets, t.grab.ok = false)
    (hnodup : ((tasksOf targetDir assets).map fun t => t.dest).Nodup) :
    (download_all_assets assets targetDir hasProgress order).ret = none ∧
    (download_all_assets assets targetDir hasProgress order).errorIdx =
      (order.find? fun i =>
        match (tasksOf targetDir assets).get? i with
        | some t => !t.grab.ok
        | none => false) ∧
    ((download_all_assets assets targetDir hasProgress order).errorIdx).isSome = true ∧
    (∀ t ∈ tasksOf targetDir assets, t.grab.fileCreated = true →
      diskAfter (tasksOf targetDir assets) disk0 t.dest = some t.grab.written ∧
      diskAfter (tasksOf targetDir assets) disk0 t.dest =
        diskAfter (tasksOf targetDir assets) disk1 t.dest) := by
  have hsome := bubble_isSome_of_fail targetDir assets order hperm hfail
  obtain ⟨j, hj⟩ := Option.isSome_iff_exists.mp hsome
  rw [download_fail_eq assets targetDir hasProgress order j hj]
  refine ⟨rfl, ?_, rfl, ?_⟩
  · show some j = _
    rw [← bubbleResults_eq_find, hj]
  · intro t ht hc
    have h0 := diskAfter_created (tasksOf targetDir assets) disk0 t ht hc hnodup
    have h1 := diskAfter_created (tasksOf targetDir assets) disk1 t ht hc hnodup
    exact ⟨h0, h0.trans h1.symm⟩

/-- C7, witness: a concrete batch whose first-submitted asset fails with a
bad status raises instead of returning. -/
theorem C7_batch_failure_witness :
    (download_all_assets [(⟨"a", 1⟩, ⟨true, false, []⟩), (⟨"b", 1⟩, ⟨true, true, [1]⟩)]
      "d" true [1, 0]).ret = none :=
  (C7_batch_failure [(⟨"a", 1⟩, ⟨true, false, []⟩), (⟨"b", 1⟩, ⟨true, true, [1]⟩)] "d"
    true [1, 0] (fun _ => none) (fun _ => some 7) (by decide) (by decide) (by decide)).1

/-- C8 counterexample: a task that streams more bytes than its asset's
declared size makes download_all_assets pass 200 to the progress callback,
which is outside the claimed range 0..100. -/
theorem C8_counterexample :
    allTaskPercents [(⟨"a", 1⟩, ⟨true, true, [2]⟩)] "d" true = [[200]] ∧ ¬ 200 ≤ 100 :=
  ⟨rfl, by decide⟩

/-- C8 amended: every reported value is a natural number of the form
floor(done * 100 / total); whenever each task's streamed bytes stay within
its declared size, every value passed to the callback — per-chunk and final
— lies in 0..100; streams exceeding the declared size can push a report
past 100. -/
theorem C8_progress_range (assets : List (Asset × Fetch)) (targetDir : String)
    (hasProgress : Bool) (order : List Nat)
    (hsize : ∀ p ∈ todoOf assets, p.2.chunks.sum ≤ p.1.size) :
    (∀ l ∈ allTaskPercents assets targetDir hasProgress, ∀ v ∈ l, v ≤ 100) ∧
    (∀ v, (download_all_assets assets targetDir hasProgress order).finalPercent = some v →
      v ≤ 100) := by
  have hdiv : ∀ x : Nat, x ≤ totalOf assets → x * 100 / totalOf assets ≤ 100 := by
    intro x hx
    rcases Nat.eq_zero_or_pos (totalOf assets) with h0 | h0
    · simp [h0]
    · have h1 : x * 100 ≤ totalOf assets * 100 := Nat.mul_le_mul_right 100 hx
      have h2 : x * 100 / totalOf assets ≤ totalOf assets * 100 / totalOf assets :=
        Nat.div_le_div_right h1
      rwa [Nat.mul_div_cancel_left 100 h0] at h2
  constructor
  · intro l hl v hv
    rw [allTaskPercents] at hl
    obtain ⟨t, ht, hlt⟩ := List.mem_map.mp hl
    obtain ⟨i, hi⟩ := List.get?_of_mem ht
    rw [tasksOf_get?] at hi
    rcases hp : (todoOf assets).get? i with _ | p
    · rw [hp] at hi
      exact Option.noConfusion hi
    · rw [hp] at hi
      injection hi with hi
      rw [← hlt, ← hi, taskPercents] at hv
      obtain ⟨done, hdone, htick⟩ := List.mem_filterMap.mp hv
      obtain ⟨-, hveq⟩ := tick_eq_some htick
      have hub : done ≤ offsetSpec assets i + p.2.chunks.sum :=
        grab_ticks_ub (offsetSpec assets i) p.2 done hdone
      have hsz := hsize p (List.get?_mem hp)
      have hoff := offset_add_size_le_total assets i p hp
      rw [hveq]
      exact hdiv done (by omega)
  · intro v hv
    rcases hb : bubbleResults (tasksOf targetDir assets) order with _ | j
    · rw [download_success_eq assets targetDir hasProgress order hb] at hv
      obtain ⟨-, hveq⟩ := tick_eq_some hv
      rw [hveq]
      exact hdiv (totalOf assets) (Nat.le_refl _)
    · rw [download_fail_eq assets targetDir hasProgress order j hb] at hv
      exact Option.noConfusion hv

/-- C8 amended, witness: a concrete batch whose stream matches the declared
sizes reports 100 at the final tick, within range. -/
theorem C8_progress_range_witness :
    (download_all_assets [(⟨"a", 2⟩, ⟨true, true, [1, 1]⟩)] "d" true [0]).finalPercent =
        some 100 ∧ 100 ≤ 100 :=
  ⟨by decide,
    (C8_progress_range [(⟨"a", 2⟩, ⟨true, true, [1, 1]⟩)] "d" true [0] (by decide)).2 100
      (by decide)⟩

/-- C10: an asset whose request returns a non-success status still has its
destination opened in write-truncate mode before the status check: the
task's file is created (truncated to empty), zero body bytes are written,
no progress is reported by it, the task fails, and the batch raises
instead of returning. -/
theorem C10_bad_status_truncates (assets : List (Asset × Fetch)) (targetDir : String)
    (hasProgress : Bool) (order : List Nat) (i : Nat) (p : Asset × Fetch)
    (hp : (todoOf assets).get? i = some p)
    (hconn : p.2.connects = true) (hstat : p.2.okStatus = false)
    (hperm : order.Perm (List.range (tasksOf targetDir assets).length)) :
    (tasksOf targetDir assets).get? i =
      some ⟨p.1, destOf targetDir p.1, offsetSpec assets i, ⟨true, 0, [], false⟩⟩ ∧
    (download_all_assets assets targetDir hasProgress order).ret = none := by
  have hgrab : _grab (offsetSpec assets i) p.2 = ⟨true, 0, [], false⟩ := by
    rw [_grab]
    simp [hconn, hstat]
  have hgi : (tasksOf targetDir assets).get? i =
      some ⟨p.1, destOf targetDir p.1, offsetSpec assets i, ⟨true, 0, [], false⟩⟩ := by
    rw [tasksOf_get?, hp]
    simp [hgrab]
  refine ⟨hgi, ?_⟩
  have hfail : ∃ t ∈ tasksOf targetDir assets, t.grab.ok = false :=
    ⟨⟨p.1, destOf targetDir p.1, offsetSpec assets i, ⟨true, 0, [], false⟩⟩,
      List.get?_mem hgi, rfl⟩
  obtain ⟨j, hj⟩ :=
    Option.isSome_iff_exists.mp (bubble_isSome_of_fail targetDir assets order hperm hfail)
  rw [download_fail_eq assets targetDir hasProgress order j hj]

/-- C10, witness at a concrete one-asset batch with a failing status. -/
theorem C10_bad_status_truncates_witness :
    (tasksOf "d" [(⟨"a", 1⟩, ⟨true, false, []⟩)]).get? 0 =
      some ⟨⟨"a", 1⟩, destOf "d" ⟨"a", 1⟩,
        offsetSpec [(⟨"a", 1⟩, ⟨true, false, []⟩)] 0, ⟨true, 0, [], false⟩⟩ ∧
    (download_all_assets [(⟨"a", 1⟩, ⟨true, false, []⟩)] "d" true [0]).ret = none :=
  C10_bad_status_truncates [(⟨"a", 1⟩, ⟨true, false, []⟩)] "d" true [0] 0
    (⟨"a", 1⟩, ⟨true, false, []⟩) (by decide) rfl rfl (by decide)

example : _extract "v1.2.3-beta" = some "1.2.3" := rfl
example : _extract "nightly" = none := rfl
example : _extract "1..2.3.4" = some "2.3.4" := rfl
example : _extract "release 10.22.304build7" = some "10.22.304" := rfl
example : compare_versions "v2.0.0" "1.9.9" none = true := rfl
example : compare_versions "v2.0.0" "2.0.0" none = false := rfl
example : compare_versions "nightly" "2.3.1" none = false := rfl
example : compare_versions "v3.0.0" "nightly" none = true := rfl
example : compare_versions "nightly" "nightly" none = true := rfl
example : compare_versions "latest" "1.0.0" (some "Build 1.2.3") = true := rfl

end Marlbot
